import Mathlib

/-!
Verification of the rule-based text classification engine
(`motor_reconocimiento.py`) of the EAD-Management repository.

Texts are modelled as `List Char`.  Python character-level primitives
(lower-casing, NFD decomposition, combining-mark detection, the `\w` and
`\s` regex classes) are modelled by explicit finite tables covering the
ASCII range together with the Spanish accented letters that the engine is
designed around; the pipeline structure of every function is translated
from the source.  Confidence arithmetic is modelled over `ℚ`; Python's
`min`/`max` builtins are modelled by their documented first-biased
conditional form.  Python's stable `sorted` is modelled by
`List.insertionSort`, a stable sort, with the same comparison.
-/

/-! ## Character primitives (model of Python `str.lower`, `unicodedata`, `re` classes) -/

/-- Model of `str.lower` restricted to the characters the engine handles:
ASCII upper-case letters and upper-case Spanish accented letters. -/
def tablaMinusculas : List (Char × Char) :=
  [('A', 'a'), ('B', 'b'), ('C', 'c'), ('D', 'd'), ('E', 'e'), ('F', 'f'),
   ('G', 'g'), ('H', 'h'), ('I', 'i'), ('J', 'j'), ('K', 'k'), ('L', 'l'),
   ('M', 'm'), ('N', 'n'), ('O', 'o'), ('P', 'p'), ('Q', 'q'), ('R', 'r'),
   ('S', 's'), ('T', 't'), ('U', 'u'), ('V', 'v'), ('W', 'w'), ('X', 'x'),
   ('Y', 'y'), ('Z', 'z'),
   ('Á', 'á'), ('É', 'é'), ('Í', 'í'), ('Ó', 'ó'), ('Ú', 'ú'), ('Ü', 'ü'),
   ('Ñ', 'ñ')]

def aMinuscula (c : Char) : Char := (tablaMinusculas.lookup c).getD c

/-- U+0301 COMBINING ACUTE ACCENT. -/
def marcaAguda : Char := Char.ofNat 0x301

/-- U+0308 COMBINING DIAERESIS. -/
def marcaDieresis : Char := Char.ofNat 0x308

/-- U+0303 COMBINING TILDE. -/
def marcaVirgulilla : Char := Char.ofNat 0x303

/-- Model of `unicodedata.normalize('NFD', ·)` on single characters:
precomposed accented letters decompose into base letter plus combining
mark; every other character is its own decomposition. -/
def tablaNFD : List (Char × List Char) :=
  [('á', ['a', marcaAguda]), ('é', ['e', marcaAguda]), ('í', ['i', marcaAguda]),
   ('ó', ['o', marcaAguda]), ('ú', ['u', marcaAguda]), ('ü', ['u', marcaDieresis]),
   ('ñ', ['n', marcaVirgulilla]),
   ('Á', ['A', marcaAguda]), ('É', ['E', marcaAguda]), ('Í', ['I', marcaAguda]),
   ('Ó', ['O', marcaAguda]), ('Ú', ['U', marcaAguda]), ('Ü', ['U', marcaDieresis]),
   ('Ñ', ['N', marcaVirgulilla])]

def descomponer (c : Char) : List Char := (tablaNFD.lookup c).getD [c]

/-- Model of `unicodedata.category(c) == 'Mn'` for the marks produced above. -/
def esMarca (c : Char) : Bool :=
  c == marcaAguda || c == marcaDieresis || c == marcaVirgulilla

/-- Model of the Python regex class `\s` (ASCII whitespace). -/
def esEspacio (c : Char) : Bool :=
  c == ' ' || c == '\t' || c == '\n' || c == '\r' ||
  c == Char.ofNat 11 || c == Char.ofNat 12

/-- Model of the Python regex class `\w`: alphanumerics, underscore, and the
accented letters of the engine's alphabet. -/
def esCaracterPalabra (c : Char) : Bool :=
  c.isAlphanum || c == '_' || (tablaNFD.lookup c).isSome

/-! ## `MotorReconocimiento.normalizar_texto` -/

/-- Model of `re.sub(r'\s+', ' ', texto)`: every maximal run of whitespace
becomes a single `' '`. -/
def colapsarEspacios : List Char → List Char
  | [] => []
  | [c] => if esEspacio c then [' '] else [c]
  | c :: d :: resto =>
    if esEspacio c then
      if esEspacio d then colapsarEspacios (d :: resto)
      else ' ' :: colapsarEspacios (d :: resto)
    else c :: colapsarEspacios (d :: resto)

/-- Model of `re.sub(r'[^\w\s]', ' ', texto)`, applied characterwise. -/
def reemplazarSimbolo (c : Char) : Char :=
  if esCaracterPalabra c || esEspacio c then c else ' '

/-- Model of `str.strip()`. -/
def recortar (l : List Char) : List Char :=
  ((l.dropWhile esEspacio).reverse.dropWhile esEspacio).reverse

/-- `MotorReconocimiento.normalizar_texto`: lower-case, NFD-decompose and
drop combining marks, collapse whitespace runs, replace non-word
non-space characters by a space, strip the ends.  The empty string is
returned unchanged (`if not texto`). -/
def normalizar_texto (texto : List Char) : List Char :=
  if texto = [] then []
  else
    recortar
      ((colapsarEspacios
        (((texto.map aMinuscula).flatMap descomponer).filter
          (fun c => !esMarca c))).map reemplazarSimbolo)

/-! ## Data model of the classifier -/

/-- One entry of the spare-part keyword mapping: a row of
`palabras_clave_repuestos` joined with its `categorias_repuestos` row, as
cached by `cargar_palabras_clave_repuestos`. -/
structure DatoRepuesto where
  palabra_original : List Char
  peso : ℚ
  es_sinonimo : Bool
  palabra_principal : Option (List Char)
  categoria_id : Int
  categoria_nombre : List Char
  categoria_padre : Option Int
  color_codigo : List Char
  deriving DecidableEq

/-- One entry of the labor keyword mapping; labor categories additionally
carry a `complejidad` rank. -/
structure DatoTrabajo where
  palabra_original : List Char
  peso : ℚ
  es_sinonimo : Bool
  palabra_principal : Option (List Char)
  categoria_id : Int
  categoria_nombre : List Char
  categoria_padre : Option Int
  color_codigo : List Char
  complejidad : Int
  deriving DecidableEq

/-- The dataclass `ClasificacionResultado` of the source. -/
structure ClasificacionResultado where
  categoria : List Char
  categoria_id : Int
  confianza : ℚ
  palabras_encontradas : List (List Char)
  es_categoria_padre : Bool
  color_codigo : List Char
  deriving DecidableEq

/-- The dataclass `DeteccionCompleta` of the source. -/
structure DeteccionCompleta where
  texto_original : List Char
  texto_normalizado : List Char
  clasificaciones : List ClasificacionResultado
  mejor_clasificacion : Option ClasificacionResultado
  confianza_total : ℚ
  deriving DecidableEq

/-- A loaded keyword taxonomy snapshot: the insertion-ordered dictionary
returned by `cargar_palabras_clave_repuestos`, keyed by normalized keyword. -/
abbrev TaxonomiaRepuestos := List (List Char × List DatoRepuesto)

/-- A loaded labor taxonomy snapshot. -/
abbrev TaxonomiaTrabajos := List (List Char × List DatoTrabajo)

/-! ## Python-semantics helpers -/

/-- Truthiness of a nullable integer, as tested by
`if not dato['categoria_padre']` and `if mantenimiento_id`. -/
def esFalsoPython : Option Int → Bool
  | none => true
  | some n => n == 0

/-- Python `min(a, b)` (first argument wins ties). -/
def pyMin (a b : ℚ) : ℚ := if a ≤ b then a else b

/-- Python `max(valores, default=porDefecto)`. -/
def maxPython (valores : List ℚ) (porDefecto : ℚ) : ℚ :=
  match valores with
  | [] => porDefecto
  | v :: resto => resto.foldl (fun m x => if m < x then x else m) v

/-- Python substring test `k in t` on strings. -/
def contieneSubcadena (k t : List Char) : Bool :=
  (List.range (t.length + 1)).any fun i => k.isPrefixOf (t.drop i)

/-- Whether the optional character on one side of a regex position is a
word character (absent characters count as non-word). -/
def ladoPalabra : Option Char → Bool
  | none => false
  | some c => esCaracterPalabra c

/-- A regex `\b` assertion between two (optional) characters. -/
def hayFrontera (a b : Option Char) : Bool := ladoPalabra a != ladoPalabra b

/-- Model of `re.search(r'\b' + re.escape(k) + r'\b', t)`: the literal `k`
occurs at some position of `t` with a word boundary on both sides. -/
def coincidePalabraCompleta (k t : List Char) : Bool :=
  (List.range (t.length + 1)).any fun i =>
    k.isPrefixOf (t.drop i)
    && hayFrontera ((t.take i).getLast?) ((t.drop i).head?)
    && hayFrontera ((t.take i ++ k).getLast?) ((t.drop (i + k.length)).head?)

/-! ## Per-candidate confidence (the adjustment cascade of the source) -/

/-- The confidence cascade of `detectar_repuestos` for one taxonomy entry:
base weight, whole-word bonus, synonym penalty, the parent-category
branch (`if not dato['categoria_padre']: *= 0.9 else: *= 1.1`), and the
final `min(confianza / 2.0, 1.0)`. -/
def confianzaRepuesto (dato : DatoRepuesto) (palabraCompleta : Bool) : ℚ :=
  let c0 := dato.peso
  let c1 := if palabraCompleta then c0 * 1.5 else c0
  let c2 := if dato.es_sinonimo then c1 * 0.8 else c1
  let c3 := if esFalsoPython dato.categoria_padre then c2 * 0.9 else c2 * 1.1
  pyMin (c3 / 2) 1

/-- The confidence cascade of `detectar_trabajos`: as for spare parts, with
the extra complexity bonus (`if dato.get('complejidad', 1) >= 3: *= 1.2`)
applied before the final division. -/
def confianzaTrabajo (dato : DatoTrabajo) (palabraCompleta : Bool) : ℚ :=
  let c0 := dato.peso
  let c1 := if palabraCompleta then c0 * 1.5 else c0
  let c2 := if dato.es_sinonimo then c1 * 0.8 else c1
  let c3 := if esFalsoPython dato.categoria_padre then c2 * 0.9 else c2 * 1.1
  let c4 := if 3 ≤ dato.complejidad then c3 * 1.2 else c3
  pyMin (c4 / 2) 1

/-! ## Candidate generation, per-category deduplication, ranking -/

/-- The candidate-collection loop of `detectar_repuestos` (lines 169-201):
for every normalized keyword occurring as a substring of the normalized
text, and every entry registered under it, keep a `ClasificacionResultado`
when its confidence clears the threshold. -/
def candidatosRepuestos (palabras_clave : TaxonomiaRepuestos)
    (texto_normalizado : List Char) (umbral : ℚ) : List ClasificacionResultado :=
  palabras_clave.flatMap fun par =>
    if contieneSubcadena par.1 texto_normalizado then
      par.2.filterMap fun dato =>
        if umbral ≤ confianzaRepuesto dato (coincidePalabraCompleta par.1 texto_normalizado) then
          some ⟨dato.categoria_nombre, dato.categoria_id,
                confianzaRepuesto dato (coincidePalabraCompleta par.1 texto_normalizado),
                [dato.palabra_original], dato.categoria_padre.isNone,
                dato.color_codigo⟩
        else none
    else []

/-- The candidate-collection loop of `detectar_trabajos` (lines 236-272). -/
def candidatosTrabajos (palabras_clave : TaxonomiaTrabajos)
    (texto_normalizado : List Char) (umbral : ℚ) : List ClasificacionResultado :=
  palabras_clave.flatMap fun par =>
    if contieneSubcadena par.1 texto_normalizado then
      par.2.filterMap fun dato =>
        if umbral ≤ confianzaTrabajo dato (coincidePalabraCompleta par.1 texto_normalizado) then
          some ⟨dato.categoria_nombre, dato.categoria_id,
                confianzaTrabajo dato (coincidePalabraCompleta par.1 texto_normalizado),
                [dato.palabra_original], dato.categoria_padre.isNone,
                dato.color_codigo⟩
        else none
    else []

/-- One step of the `clasificaciones_unicas` dictionary build: the Python
dict is keyed by `cls.categoria`; an existing key keeps its position and
is overwritten only by a strictly larger confidence. -/
def actualizarUnicas (acumulado : List ClasificacionResultado)
    (cls : ClasificacionResultado) : List ClasificacionResultado :=
  match acumulado with
  | [] => [cls]
  | v :: resto =>
    if v.categoria = cls.categoria then
      if v.confianza < cls.confianza then cls :: resto else v :: resto
    else v :: actualizarUnicas resto cls

/-- The comparison of `sorted(..., key=lambda x: x.confianza, reverse=True)`:
descending confidence. -/
def ordenConfianza (a b : ClasificacionResultado) : Prop :=
  b.confianza ≤ a.confianza

instance : DecidableRel ordenConfianza :=
  fun a b => inferInstanceAs (Decidable (b.confianza ≤ a.confianza))

instance : IsTotal ClasificacionResultado ordenConfianza :=
  ⟨fun a b => le_total b.confianza a.confianza⟩

instance : IsTrans ClasificacionResultado ordenConfianza :=
  ⟨fun _ _ _ hab hbc => le_trans hbc hab⟩

/-- `MotorReconocimiento.detectar_repuestos`.  The taxonomy snapshot stands
for the cached result of `cargar_palabras_clave_repuestos`; Python's
stable `sorted` is modelled by the stable `insertionSort`. -/
def detectar_repuestos (palabras_clave : TaxonomiaRepuestos) (texto : List Char)
    (umbral_confianza : ℚ) : DeteccionCompleta :=
  let texto_normalizado := normalizar_texto texto
  let clasificaciones := candidatosRepuestos palabras_clave texto_normalizado umbral_confianza
  let clasificaciones_finales :=
    List.insertionSort ordenConfianza (clasificaciones.foldl actualizarUnicas [])
  ⟨texto, texto_normalizado, clasificaciones_finales, clasificaciones_finales.head?,
   maxPython (clasificaciones_finales.map (fun c => c.confianza)) 0⟩

/-- `MotorReconocimiento.detectar_trabajos`. -/
def detectar_trabajos (palabras_clave : TaxonomiaTrabajos) (texto : List Char)
    (umbral_confianza : ℚ) : DeteccionCompleta :=
  let texto_normalizado := normalizar_texto texto
  let clasificaciones := candidatosTrabajos palabras_clave texto_normalizado umbral_confianza
  let clasificaciones_finales :=
    List.insertionSort ordenConfianza (clasificaciones.foldl actualizarUnicas [])
  ⟨texto, texto_normalizado, clasificaciones_finales, clasificaciones_finales.head?,
   maxPython (clasificaciones_finales.map (fun c => c.confianza)) 0⟩

/-! ## Audit store and `guardar_clasificacion` -/

/-- One row of `clasificaciones_automaticas`; the `str(...)` serialization
of the keyword lists is modelled by the lists themselves. -/
structure RegistroClasificacion where
  mantenimiento_id : Int
  texto_original : List Char
  tipo : List Char
  categoria_detectada : List Char
  confianza : ℚ
  palabras_encontradas : List (List (List Char))
  deriving DecidableEq

/-- The audit store: the rows written so far, plus a flag saying whether
the underlying database raises on access. -/
structure Almacen where
  registros : List RegistroClasificacion
  falla : Bool
  deriving DecidableEq

/-- `MotorReconocimiento.guardar_clasificacion`: connect (which raises when
the store is failing), insert one row when a best classification exists,
commit.  The function contains no exception handler. -/
def guardar_clasificacion (almacen : Almacen) (mantenimiento_id : Int)
    (deteccion : DeteccionCompleta) (tipo : List Char) : Except Unit Almacen :=
  if almacen.falla then Except.error ()
  else
    match deteccion.mejor_clasificacion with
    | some mejor =>
      Except.ok ⟨almacen.registros ++
        [⟨mantenimiento_id, deteccion.texto_original, tipo, mejor.categoria,
          deteccion.confianza_total,
          deteccion.clasificaciones.map (fun c => c.palabras_encontradas)⟩],
        almacen.falla⟩
    | none => Except.ok almacen

/-! ## `analizar_mantenimiento_completo` -/

/-- Banker's rounding of a rational to an integer (Python `round`). -/
def redondeoBancarioEntero (y : ℚ) : Int :=
  let n := ⌊y⌋
  if y - n < 1 / 2 then n
  else if 1 / 2 < y - n then n + 1
  else if n % 2 = 0 then n else n + 1

/-- Python `round(x, 1)`. -/
def redondear1 (x : ℚ) : ℚ := (redondeoBancarioEntero (x * 10) : ℚ) / 10

/-- One entry of the `repuestos` / `trabajos` lists of the returned report
dictionary. -/
structure ItemReporte where
  categoria : List Char
  confianza : ℚ
  palabras : List (List Char)
  color : List Char
  deriving DecidableEq

/-- The dictionary returned by `analizar_mantenimiento_completo`.  The
`resumen` line is abstracted to the two counts it interpolates; `none`
stands for the fixed text answered for an empty description (whose
dictionary carries no `mejor_*` keys, modelled by `none` entries). -/
structure Reporte where
  repuestos : List ItemReporte
  trabajos : List ItemReporte
  confianza_repuestos : ℚ
  confianza_trabajos : ℚ
  mejor_repuesto : Option (List Char)
  mejor_trabajo : Option (List Char)
  resumen : Option (Nat × Nat)
  deriving DecidableEq

def etiquetaRepuesto : List Char := "repuesto".toList

def etiquetaTrabajo : List Char := "trabajo".toList

/-- `parte.lower().startswith(prefijo)`. -/
def empiezaCon (prefijo parte : List Char) : Bool :=
  prefijo.isPrefixOf (parte.map aMinuscula)

/-- One iteration of the segment loop of `analizar_mantenimiento_completo`
(lines 339-348): the stripped segment is routed to the parts accumulator,
the labor accumulator, or both, always appended after a single space. -/
def pasoAcumular (acumulado : List Char × List Char) (parte0 : List Char) :
    List Char × List Char :=
  if empiezaCon etiquetaRepuesto (recortar parte0) then
    (acumulado.1 ++ ' ' :: recortar parte0, acumulado.2)
  else if empiezaCon etiquetaTrabajo (recortar parte0) then
    (acumulado.1, acumulado.2 ++ ' ' :: recortar parte0)
  else
    (acumulado.1 ++ ' ' :: recortar parte0, acumulado.2 ++ ' ' :: recortar parte0)

/-- The segment loop of `analizar_mantenimiento_completo`, starting from
two empty accumulators. -/
def acumularPartes (partes : List (List Char)) : List Char × List Char :=
  partes.foldl pasoAcumular ([], [])

/-- The label of a stripped segment, with the precedence of the source:
`0` for a parts label, `1` for a labor label, `2` for neither. -/
def etiquetaDe (parte : List Char) : Nat :=
  if empiezaCon etiquetaRepuesto parte then 0
  else if empiezaCon etiquetaTrabajo parte then 1
  else 2

/-- The report dictionary built at the end of a successful analysis:
top-5 matches per pass, percentage confidences rounded to one decimal,
best category names, and the two detection counts of the summary line. -/
def reporteDe (dR dT : DeteccionCompleta) : Reporte :=
  ⟨(dR.clasificaciones.take 5).map
      (fun c => ⟨c.categoria, redondear1 (c.confianza * 100),
                 c.palabras_encontradas, c.color_codigo⟩),
   (dT.clasificaciones.take 5).map
      (fun c => ⟨c.categoria, redondear1 (c.confianza * 100),
                 c.palabras_encontradas, c.color_codigo⟩),
   redondear1 (dR.confianza_total * 100), redondear1 (dT.confianza_total * 100),
   dR.mejor_clasificacion.map (fun c => c.categoria),
   dT.mejor_clasificacion.map (fun c => c.categoria),
   some (dR.clasificaciones.length, dT.clasificaciones.length)⟩

/-- The report answered for a missing or empty description. -/
def reporteVacio : Reporte := ⟨[], [], 0, 0, none, none, none⟩

/-- The recording block of `analizar_mantenimiento_completo` (lines
356-361): guarded by the truthiness of the optional record id, one write
per pass that has a best classification, the second write only reached
when the first did not raise. -/
def escrituraAuditoria (almacen : Almacen) (mantenimiento_id : Option Int)
    (deteccion_repuestos deteccion_trabajos : DeteccionCompleta) :
    Except Unit Almacen :=
  match mantenimiento_id with
  | some mid =>
    if mid ≠ 0 then
      match (if deteccion_repuestos.mejor_clasificacion.isSome then
               guardar_clasificacion almacen mid deteccion_repuestos etiquetaRepuesto
             else Except.ok almacen) with
      | Except.error e => Except.error e
      | Except.ok a1 =>
        if deteccion_trabajos.mejor_clasificacion.isSome then
          guardar_clasificacion a1 mid deteccion_trabajos etiquetaTrabajo
        else Except.ok a1
    else Except.ok almacen
  | none => Except.ok almacen

/-- `MotorReconocimiento.analizar_mantenimiento_completo`.  The two
taxonomy snapshots stand for the loader caches; the audit store is
threaded explicitly, and an uncaught store error aborts the call (the
source has no handler around `guardar_clasificacion`). -/
def analizar_mantenimiento_completo (taxR : TaxonomiaRepuestos)
    (taxT : TaxonomiaTrabajos) (almacen : Almacen)
    (descripcion : Option (List Char)) (mantenimiento_id : Option Int) :
    Except Unit (Reporte × Almacen) :=
  match descripcion with
  | none => Except.ok (reporteVacio, almacen)
  | some d =>
    if d = [] then Except.ok (reporteVacio, almacen)
    else
      let textos := acumularPartes (List.splitOn '|' d)
      let deteccion_repuestos := detectar_repuestos taxR textos.1 0.3
      let deteccion_trabajos := detectar_trabajos taxT textos.2 0.3
      match escrituraAuditoria almacen mantenimiento_id
          deteccion_repuestos deteccion_trabajos with
      | Except.error e => Except.error e
      | Except.ok a2 => Except.ok (reporteDe deteccion_repuestos deteccion_trabajos, a2)

/-! ## Lemmas about the per-category deduplication dictionary -/

theorem mem_actualizarUnicas (acumulado : List ClasificacionResultado)
    (cls x : ClasificacionResultado) (hx : x ∈ actualizarUnicas acumulado cls) :
    x ∈ acumulado ∨ x = cls := by
  induction acumulado with
  | nil =>
    simp [actualizarUnicas] at hx
    exact Or.inr hx
  | cons v resto ih =>
    simp only [actualizarUnicas] at hx
    by_cases hcat : v.categoria = cls.categoria
    · rw [if_pos hcat] at hx
      by_cases hconf : v.confianza < cls.confianza
      · rw [if_pos hconf] at hx
        rcases List.mem_cons.mp hx with h | h
        · exact Or.inr h
        · exact Or.inl (List.mem_cons_of_mem v h)
      · rw [if_neg hconf] at hx
        rcases List.mem_cons.mp hx with h | h
        · exact Or.inl (h ▸ List.mem_cons_self v resto)
        · exact Or.inl (List.mem_cons_of_mem v h)
    · rw [if_neg hcat] at hx
      rcases List.mem_cons.mp hx with h | h
      · exact Or.inl (h ▸ List.mem_cons_self v resto)
      · rcases ih h with h2 | h2
        · exact Or.inl (List.mem_cons_of_mem v h2)
        · exact Or.inr h2

theorem mem_foldl_actualizarUnicas (l : List ClasificacionResultado)
    (acumulado : List ClasificacionResultado) (x : ClasificacionResultado)
    (hx : x ∈ l.foldl actualizarUnicas acumulado) : x ∈ acumulado ∨ x ∈ l := by
  induction l generalizing acumulado with
  | nil => exact Or.inl (by simpa using hx)
  | cons c resto ih =>
    simp only [List.foldl_cons] at hx
    rcases ih (actualizarUnicas acumulado c) hx with h | h
    · rcases mem_actualizarUnicas acumulado c x h with h2 | h2
      · exact Or.inl h2
      · exact Or.inr (h2 ▸ List.mem_cons_self c resto)
    · exact Or.inr (List.mem_cons_of_mem c h)

theorem map_categoria_actualizarUnicas (acumulado : List ClasificacionResultado)
    (cls : ClasificacionResultado) :
    (actualizarUnicas acumulado cls).map ClasificacionResultado.categoria =
      if cls.categoria ∈ acumulado.map ClasificacionResultado.categoria then
        acumulado.map ClasificacionResultado.categoria
      else acumulado.map ClasificacionResultado.categoria ++ [cls.categoria] := by
  induction acumulado with
  | nil => simp [actualizarUnicas]
  | cons v resto ih =>
    simp only [actualizarUnicas, List.map_cons]
    by_cases hcat : v.categoria = cls.categoria
    · by_cases hconf : v.confianza < cls.confianza <;>
        simp [hcat, hconf, List.mem_cons]
    · have hne : cls.categoria ≠ v.categoria := fun h => hcat h.symm
      by_cases hmem : cls.categoria ∈ resto.map ClasificacionResultado.categoria <;>
        simp [hcat, hmem, ih, List.mem_cons, hne]

theorem nodup_foldl_actualizarUnicas (l : List ClasificacionResultado)
    (acumulado : List ClasificacionResultado)
    (h : (acumulado.map ClasificacionResultado.categoria).Nodup) :
    ((l.foldl actualizarUnicas acumulado).map ClasificacionResultado.categoria).Nodup := by
  induction l generalizing acumulado with
  | nil => simpa using h
  | cons c resto ih =>
    simp only [List.foldl_cons]
    apply ih
    rw [map_categoria_actualizarUnicas]
    by_cases hmem : c.categoria ∈ acumulado.map ClasificacionResultado.categoria
    · simpa [hmem] using h
    · rw [if_neg hmem]
      have hp := List.perm_append_singleton c.categoria
        (acumulado.map ClasificacionResultado.categoria)
      exact hp.nodup_iff.mpr (List.nodup_cons.mpr ⟨hmem, h⟩)

theorem toFinset_foldl_actualizarUnicas (l : List ClasificacionResultado)
    (acumulado : List ClasificacionResultado) :
    ((l.foldl actualizarUnicas acumulado).map ClasificacionResultado.categoria).toFinset =
      (acumulado.map ClasificacionResultado.categoria).toFinset ∪
        (l.map ClasificacionResultado.categoria).toFinset := by
  induction l generalizing acumulado with
  | nil => simp
  | cons c resto ih =>
    simp only [List.foldl_cons]
    rw [ih, map_categoria_actualizarUnicas]
    by_cases hmem : c.categoria ∈ acumulado.map ClasificacionResultado.categoria
    · rw [if_pos hmem]
      ext a
      simp only [Finset.mem_union, List.mem_toFinset, List.map_cons, List.mem_cons]
      constructor
      · rintro (h | h)
        · exact Or.inl h
        · exact Or.inr (Or.inr h)
      · rintro (h | h | h)
        · exact Or.inl h
        · exact Or.inl (h ▸ hmem)
        · exact Or.inr h
    · rw [if_neg hmem]
      ext a
      simp only [Finset.mem_union, List.mem_toFinset, List.map_cons, List.mem_cons,
        List.mem_append, List.mem_singleton]
      tauto

theorem length_foldl_actualizarUnicas (l : List ClasificacionResultado) :
    (l.foldl actualizarUnicas []).length =
      ((l.map ClasificacionResultado.categoria).toFinset).card := by
  have h0 : (([] : List ClasificacionResultado).map
      ClasificacionResultado.categoria).Nodup := List.nodup_nil
  have hn := nodup_foldl_actualizarUnicas l [] h0
  have hf := toFinset_foldl_actualizarUnicas l []
  simp only [List.map_nil, List.toFinset_nil, Finset.empty_union] at hf
  calc (l.foldl actualizarUnicas []).length
      = ((l.foldl actualizarUnicas []).map ClasificacionResultado.categoria).length := by
        rw [List.length_map]
    _ = ((l.foldl actualizarUnicas []).map ClasificacionResultado.categoria).toFinset.card :=
        (List.toFinset_card_of_nodup hn).symm
    _ = ((l.map ClasificacionResultado.categoria).toFinset).card := by rw [hf]

/-! ## Lemmas for the highest-confidence collapse per category -/

theorem nodup_actualizarUnicas (acumulado : List ClasificacionResultado)
    (cls : ClasificacionResultado)
    (h : (acumulado.map ClasificacionResultado.categoria).Nodup) :
    ((actualizarUnicas acumulado cls).map ClasificacionResultado.categoria).Nodup := by
  rw [map_categoria_actualizarUnicas]
  by_cases hmem : cls.categoria ∈ acumulado.map ClasificacionResultado.categoria
  · rw [if_pos hmem]
    exact h
  · rw [if_neg hmem]
    exact (List.perm_append_singleton _ _).nodup_iff.mpr (List.nodup_cons.mpr ⟨hmem, h⟩)

theorem conserva_actualizarUnicas (acumulado : List ClasificacionResultado)
    (cls c : ClasificacionResultado) (hc : c ∈ acumulado) :
    ∃ e ∈ actualizarUnicas acumulado cls, e.categoria = c.categoria ∧
      c.confianza ≤ e.confianza := by
  induction acumulado with
  | nil => simp at hc
  | cons v resto ih =>
    simp only [actualizarUnicas]
    rcases List.mem_cons.mp hc with hcv | hcr
    · subst hcv
      by_cases hcat : c.categoria = cls.categoria
      · rw [if_pos hcat]
        by_cases hconf : c.confianza < cls.confianza
        · rw [if_pos hconf]
          exact ⟨cls, List.mem_cons_self _ _, hcat.symm, le_of_lt hconf⟩
        · rw [if_neg hconf]
          exact ⟨c, List.mem_cons_self _ _, rfl, le_refl _⟩
      · rw [if_neg hcat]
        exact ⟨c, List.mem_cons_self _ _, rfl, le_refl _⟩
    · by_cases hcat : v.categoria = cls.categoria
      · rw [if_pos hcat]
        by_cases hconf : v.confianza < cls.confianza
        · rw [if_pos hconf]
          exact ⟨c, List.mem_cons_of_mem _ hcr, rfl, le_refl _⟩
        · rw [if_neg hconf]
          exact ⟨c, List.mem_cons_of_mem _ hcr, rfl, le_refl _⟩
      · rw [if_neg hcat]
        rcases ih hcr with ⟨e, he, hec, hle⟩
        exact ⟨e, List.mem_cons_of_mem _ he, hec, hle⟩

theorem propio_actualizarUnicas (acumulado : List ClasificacionResultado)
    (cls : ClasificacionResultado) :
    ∃ e ∈ actualizarUnicas acumulado cls, e.categoria = cls.categoria ∧
      cls.confianza ≤ e.confianza := by
  induction acumulado with
  | nil =>
    simp only [actualizarUnicas]
    exact ⟨cls, List.mem_cons_self _ _, rfl, le_refl _⟩
  | cons v resto ih =>
    simp only [actualizarUnicas]
    by_cases hcat : v.categoria = cls.categoria
    · rw [if_pos hcat]
      by_cases hconf : v.confianza < cls.confianza
      · rw [if_pos hconf]
        exact ⟨cls, List.mem_cons_self _ _, rfl, le_refl _⟩
      · rw [if_neg hconf]
        exact ⟨v, List.mem_cons_self _ _, hcat, not_lt.mp hconf⟩
    · rw [if_neg hcat]
      rcases ih with ⟨e, he, hec, hle⟩
      exact ⟨e, List.mem_cons_of_mem _ he, hec, hle⟩

theorem crece_foldl_actualizarUnicas (l : List ClasificacionResultado) :
    ∀ (acumulado : List ClasificacionResultado) (c d : ClasificacionResultado),
    (acumulado.map ClasificacionResultado.categoria).Nodup → c ∈ acumulado →
    d ∈ l.foldl actualizarUnicas acumulado → d.categoria = c.categoria →
    c.confianza ≤ d.confianza := by
  induction l with
  | nil =>
    intro acumulado c d hnd hc hd hcat
    simp only [List.foldl_nil] at hd
    exact le_of_eq (congrArg ClasificacionResultado.confianza
      (List.inj_on_of_nodup_map hnd hd hc hcat)).symm
  | cons x rest ih =>
    intro acumulado c d hnd hc hd hcat
    simp only [List.foldl_cons] at hd
    rcases conserva_actualizarUnicas acumulado x c hc with ⟨e, he, hec, hle⟩
    exact le_trans hle (ih _ e d (nodup_actualizarUnicas acumulado x hnd) he hd
      (hcat.trans hec.symm))

theorem cota_foldl_actualizarUnicas (l : List ClasificacionResultado) :
    ∀ (acumulado : List ClasificacionResultado),
    (acumulado.map ClasificacionResultado.categoria).Nodup →
    ∀ c ∈ l.foldl actualizarUnicas acumulado, ∀ x ∈ l,
    x.categoria = c.categoria → x.confianza ≤ c.confianza := by
  induction l with
  | nil =>
    intro acumulado _ c _ x hx _
    simp at hx
  | cons x0 rest ih =>
    intro acumulado hnd c hc x hx hcat
    simp only [List.foldl_cons] at hc
    rcases List.mem_cons.mp hx with hx0 | hxr
    · subst hx0
      rcases propio_actualizarUnicas acumulado x with ⟨e, he, hec, hle⟩
      exact le_trans hle (crece_foldl_actualizarUnicas rest _ e c
        (nodup_actualizarUnicas acumulado x hnd) he hc (hcat.symm.trans hec.symm))
    · exact ih (actualizarUnicas acumulado x0)
        (nodup_actualizarUnicas acumulado x0 hnd) c hc x hxr hcat

/-! ## Lemmas about ranking and the overall confidence -/

theorem foldl_max_python (v : ℚ) (xs : List ℚ) (h : ∀ x ∈ xs, x ≤ v) :
    xs.foldl (fun m x => if m < x then x else m) v = v := by
  induction xs with
  | nil => rfl
  | cons a resto ih =>
    simp only [List.foldl_cons]
    rw [if_neg (not_lt.mpr (h a (List.mem_cons_self a resto)))]
    exact ih (fun x hx => h x (List.mem_cons_of_mem a hx))

theorem maxPython_sorted (l : List ClasificacionResultado)
    (h : l.Sorted ordenConfianza) :
    maxPython (l.map (fun c => c.confianza)) 0 =
      ((l.head?.map (fun c => c.confianza)).getD 0) := by
  cases l with
  | nil => rfl
  | cons c resto =>
    simp only [maxPython, List.map_cons, List.head?_cons, Option.map_some, Option.getD_some]
    apply foldl_max_python
    intro x hx
    rcases List.mem_map.mp hx with ⟨d, hd, hdx⟩
    exact hdx ▸ (List.sorted_cons.mp h).1 d hd

/-! ## Lemmas about candidate generation -/

theorem contieneSubcadena_nil (k : List Char) (hk : k ≠ []) :
    contieneSubcadena k [] = false := by
  cases k with
  | nil => exact absurd rfl hk
  | cons c resto => rfl

theorem mem_candidatosRepuestos_mono (tax : TaxonomiaRepuestos) (tn : List Char)
    (u1 u2 : ℚ) (h12 : u1 ≤ u2) (x : ClasificacionResultado)
    (hx : x ∈ candidatosRepuestos tax tn u2) : x ∈ candidatosRepuestos tax tn u1 := by
  simp only [candidatosRepuestos] at hx ⊢
  rcases List.mem_flatMap.mp hx with ⟨par, hpar, hin⟩
  by_cases hc : contieneSubcadena par.1 tn = true
  · rw [if_pos hc] at hin
    rcases List.mem_filterMap.mp hin with ⟨dato, hdato, heq⟩
    by_cases hu : u2 ≤ confianzaRepuesto dato (coincidePalabraCompleta par.1 tn)
    · rw [if_pos hu] at heq
      refine List.mem_flatMap.mpr ⟨par, hpar, ?_⟩
      rw [if_pos hc]
      exact List.mem_filterMap.mpr ⟨dato, hdato, by rw [if_pos (le_trans h12 hu)]; exact heq⟩
    · rw [if_neg hu] at heq
      exact absurd heq (by simp)
  · rw [if_neg hc] at hin
    exact absurd hin (by simp)

theorem mem_candidatosTrabajos_mono (tax : TaxonomiaTrabajos) (tn : List Char)
    (u1 u2 : ℚ) (h12 : u1 ≤ u2) (x : ClasificacionResultado)
    (hx : x ∈ candidatosTrabajos tax tn u2) : x ∈ candidatosTrabajos tax tn u1 := by
  simp only [candidatosTrabajos] at hx ⊢
  rcases List.mem_flatMap.mp hx with ⟨par, hpar, hin⟩
  by_cases hc : contieneSubcadena par.1 tn = true
  · rw [if_pos hc] at hin
    rcases List.mem_filterMap.mp hin with ⟨dato, hdato, heq⟩
    by_cases hu : u2 ≤ confianzaTrabajo dato (coincidePalabraCompleta par.1 tn)
    · rw [if_pos hu] at heq
      refine List.mem_flatMap.mpr ⟨par, hpar, ?_⟩
      rw [if_pos hc]
      exact List.mem_filterMap.mpr ⟨dato, hdato, by rw [if_pos (le_trans h12 hu)]; exact heq⟩
    · rw [if_neg hu] at heq
      exact absurd heq (by simp)
  · rw [if_neg hc] at hin
    exact absurd hin (by simp)

theorem palabras_candidatosRepuestos (tax : TaxonomiaRepuestos) (tn : List Char)
    (u : ℚ) (x : ClasificacionResultado) (hx : x ∈ candidatosRepuestos tax tn u) :
    x.palabras_encontradas.length = 1 := by
  simp only [candidatosRepuestos] at hx
  rcases List.mem_flatMap.mp hx with ⟨par, hpar, hin⟩
  by_cases hc : contieneSubcadena par.1 tn = true
  · rw [if_pos hc] at hin
    rcases List.mem_filterMap.mp hin with ⟨dato, hdato, heq⟩
    by_cases hu : u ≤ confianzaRepuesto dato (coincidePalabraCompleta par.1 tn)
    · rw [if_pos hu] at heq
      rw [← Option.some.inj heq]
      rfl
    · rw [if_neg hu] at heq
      exact absurd heq (by simp)
  · rw [if_neg hc] at hin
    exact absurd hin (by simp)

theorem palabras_candidatosTrabajos (tax : TaxonomiaTrabajos) (tn : List Char)
    (u : ℚ) (x : ClasificacionResultado) (hx : x ∈ candidatosTrabajos tax tn u) :
    x.palabras_encontradas.length = 1 := by
  simp only [candidatosTrabajos] at hx
  rcases List.mem_flatMap.mp hx with ⟨par, hpar, hin⟩
  by_cases hc : contieneSubcadena par.1 tn = true
  · rw [if_pos hc] at hin
    rcases List.mem_filterMap.mp hin with ⟨dato, hdato, heq⟩
    by_cases hu : u ≤ confianzaTrabajo dato (coincidePalabraCompleta par.1 tn)
    · rw [if_pos hu] at heq
      rw [← Option.some.inj heq]
      rfl
    · rw [if_neg hu] at heq
      exact absurd heq (by simp)
  · rw [if_neg hc] at hin
    exact absurd hin (by simp)

theorem candidatosRepuestos_texto_vacio (tax : TaxonomiaRepuestos) (u : ℚ)
    (hk : ∀ par ∈ tax, par.1 ≠ []) : candidatosRepuestos tax [] u = [] := by
  induction tax with
  | nil => rfl
  | cons par resto ih =>
    simp only [candidatosRepuestos, List.flatMap_cons] at ih ⊢
    rw [contieneSubcadena_nil par.1 (hk par (List.mem_cons_self par resto))]
    simpa using ih (fun p hp => hk p (List.mem_cons_of_mem par hp))

theorem candidatosTrabajos_texto_vacio (tax : TaxonomiaTrabajos) (u : ℚ)
    (hk : ∀ par ∈ tax, par.1 ≠ []) : candidatosTrabajos tax [] u = [] := by
  induction tax with
  | nil => rfl
  | cons par resto ih =>
    simp only [candidatosTrabajos, List.flatMap_cons] at ih ⊢
    rw [contieneSubcadena_nil par.1 (hk par (List.mem_cons_self par resto))]
    simpa using ih (fun p hp => hk p (List.mem_cons_of_mem par hp))

/-! ## Projection lemmas for the detection results -/

theorem clasificaciones_detectar_repuestos (tax : TaxonomiaRepuestos)
    (texto : List Char) (u : ℚ) :
    (detectar_repuestos tax texto u).clasificaciones =
      List.insertionSort ordenConfianza
        ((candidatosRepuestos tax (normalizar_texto texto) u).foldl actualizarUnicas []) := rfl

theorem clasificaciones_detectar_trabajos (tax : TaxonomiaTrabajos)
    (texto : List Char) (u : ℚ) :
    (detectar_trabajos tax texto u).clasificaciones =
      List.insertionSort ordenConfianza
        ((candidatosTrabajos tax (normalizar_texto texto) u).foldl actualizarUnicas []) := rfl

/-! ## Example taxonomy snapshots used by the witnesses -/

def datoFiltroEj : DatoRepuesto :=
  ⟨"filtro".toList, 1, false, none, 1, "Filtros".toList, none, "f00".toList⟩

def taxRepuestosEj : TaxonomiaRepuestos := [("filtro".toList, [datoFiltroEj])]

/-- A second keyword registered for the same category "Filtros", scoring
higher on the witness text than `datoFiltroEj` does. -/
def datoFiltrosEj : DatoRepuesto :=
  ⟨"filtros".toList, 1, false, none, 1, "Filtros".toList, none, "f00".toList⟩

/-- A snapshot where two distinct keywords trigger the same category with
different confidences, so the per-category collapse is exercised. -/
def taxRepuestosDobleEj : TaxonomiaRepuestos :=
  [("filtro".toList, [datoFiltroEj]), ("filtros".toList, [datoFiltrosEj])]

def datoServicioEj : DatoTrabajo :=
  ⟨"service".toList, 1, false, none, 1, "Mantenimiento General".toList, none, "0f0".toList, 1⟩

def taxTrabajosEj : TaxonomiaTrabajos := [("service".toList, [datoServicioEj])]

/-! ## Claim theorems -/

/-- Claim C5: for every input text and taxonomy snapshot, and thresholds
`u1 ≤ u2`, classifying with the higher threshold returns at most as many
matches as classifying with the lower one, for both taxonomy kinds. -/
theorem c5_monotonia_umbral (taxR : TaxonomiaRepuestos) (taxT : TaxonomiaTrabajos)
    (texto : List Char) (u1 u2 : ℚ) (h12 : u1 ≤ u2) :
    (detectar_repuestos taxR texto u2).clasificaciones.length ≤
      (detectar_repuestos taxR texto u1).clasificaciones.length ∧
    (detectar_trabajos taxT texto u2).clasificaciones.length ≤
      (detectar_trabajos taxT texto u1).clasificaciones.length := by
  constructor
  · rw [clasificaciones_detectar_repuestos, clasificaciones_detectar_repuestos,
      List.length_insertionSort, List.length_insertionSort,
      length_foldl_actualizarUnicas, length_foldl_actualizarUnicas]
    apply Finset.card_le_card
    intro a ha
    rcases List.mem_map.mp (List.mem_toFinset.mp ha) with ⟨x, hx, hxa⟩
    exact List.mem_toFinset.mpr (List.mem_map.mpr
      ⟨x, mem_candidatosRepuestos_mono taxR _ u1 u2 h12 x hx, hxa⟩)
  · rw [clasificaciones_detectar_trabajos, clasificaciones_detectar_trabajos,
      List.length_insertionSort, List.length_insertionSort,
      length_foldl_actualizarUnicas, length_foldl_actualizarUnicas]
    apply Finset.card_le_card
    intro a ha
    rcases List.mem_map.mp (List.mem_toFinset.mp ha) with ⟨x, hx, hxa⟩
    exact List.mem_toFinset.mpr (List.mem_map.mpr
      ⟨x, mem_candidatosTrabajos_mono taxT _ u1 u2 h12 x hx, hxa⟩)

theorem c5_testigo :
    (detectar_repuestos taxRepuestosEj "filtro".toList 1).clasificaciones.length ≤
      (detectar_repuestos taxRepuestosEj "filtro".toList (3 / 10)).clasificaciones.length ∧
    (detectar_trabajos taxTrabajosEj "filtro".toList 1).clasificaciones.length ≤
      (detectar_trabajos taxTrabajosEj "filtro".toList (3 / 10)).clasificaciones.length :=
  c5_monotonia_umbral taxRepuestosEj taxTrabajosEj "filtro".toList (3 / 10) 1
    (by with_unfolding_all decide)

/-- Claim C6: in every detection result, no two returned matches share a
category name — the category names of the ranked list are pairwise
distinct — and duplicate candidates collapse to the highest-confidence
instance: every returned match is itself one of the candidates, and its
confidence bounds every candidate of the same category; for both
taxonomy kinds. -/
theorem c6_unicidad_categorias (taxR : TaxonomiaRepuestos) (taxT : TaxonomiaTrabajos)
    (texto : List Char) (u : ℚ) :
    (((detectar_repuestos taxR texto u).clasificaciones.map
        ClasificacionResultado.categoria).Nodup ∧
     ∀ c ∈ (detectar_repuestos taxR texto u).clasificaciones,
       c ∈ candidatosRepuestos taxR (normalizar_texto texto) u ∧
       ∀ x ∈ candidatosRepuestos taxR (normalizar_texto texto) u,
         x.categoria = c.categoria → x.confianza ≤ c.confianza) ∧
    (((detectar_trabajos taxT texto u).clasificaciones.map
        ClasificacionResultado.categoria).Nodup ∧
     ∀ c ∈ (detectar_trabajos taxT texto u).clasificaciones,
       c ∈ candidatosTrabajos taxT (normalizar_texto texto) u ∧
       ∀ x ∈ candidatosTrabajos taxT (normalizar_texto texto) u,
         x.categoria = c.categoria → x.confianza ≤ c.confianza) := by
  refine ⟨⟨?_, ?_⟩, ⟨?_, ?_⟩⟩
  · rw [clasificaciones_detectar_repuestos]
    have hperm := (List.perm_insertionSort ordenConfianza
      ((candidatosRepuestos taxR (normalizar_texto texto) u).foldl actualizarUnicas [])).map
      ClasificacionResultado.categoria
    exact hperm.nodup_iff.mpr
      (nodup_foldl_actualizarUnicas _ [] List.nodup_nil)
  · intro c hc
    rw [clasificaciones_detectar_repuestos] at hc
    have hc2 := (List.perm_insertionSort ordenConfianza _).mem_iff.mp hc
    constructor
    · rcases mem_foldl_actualizarUnicas _ [] c hc2 with h | h
      · exact absurd h (List.not_mem_nil c)
      · exact h
    · intro x hx hcat
      exact cota_foldl_actualizarUnicas _ [] List.nodup_nil c hc2 x hx hcat
  · rw [clasificaciones_detectar_trabajos]
    have hperm := (List.perm_insertionSort ordenConfianza
      ((candidatosTrabajos taxT (normalizar_texto texto) u).foldl actualizarUnicas [])).map
      ClasificacionResultado.categoria
    exact hperm.nodup_iff.mpr
      (nodup_foldl_actualizarUnicas _ [] List.nodup_nil)
  · intro c hc
    rw [clasificaciones_detectar_trabajos] at hc
    have hc2 := (List.perm_insertionSort ordenConfianza _).mem_iff.mp hc
    constructor
    · rcases mem_foldl_actualizarUnicas _ [] c hc2 with h | h
      · exact absurd h (List.not_mem_nil c)
      · exact h
    · intro x hx hcat
      exact cota_foldl_actualizarUnicas _ [] List.nodup_nil c hc2 x hx hcat

theorem c6_testigo :
    (⟨"Filtros".toList, 1, 9 / 20, ["filtro".toList], true, "f00".toList⟩ :
        ClasificacionResultado).confianza ≤
      (⟨"Filtros".toList, 1, 27 / 40, ["filtros".toList], true, "f00".toList⟩ :
        ClasificacionResultado).confianza :=
  ((((c6_unicidad_categorias taxRepuestosDobleEj taxTrabajosEj
        "filtros".toList (3 / 10)).1).2 _
      (by with_unfolding_all decide)).2) _ (by with_unfolding_all decide) rfl

/-- Claim C7: every detection result is ranked by non-increasing
confidence, its best match is the first element of the ranked list, and
its overall confidence is the confidence of the best match, or `0` when
the list is empty — for both taxonomy kinds. -/
theorem c7_orden_y_confianza (taxR : TaxonomiaRepuestos) (taxT : TaxonomiaTrabajos)
    (texto : List Char) (u : ℚ) :
    ((detectar_repuestos taxR texto u).clasificaciones.Sorted ordenConfianza ∧
     (detectar_repuestos taxR texto u).mejor_clasificacion =
       (detectar_repuestos taxR texto u).clasificaciones.head? ∧
     (detectar_repuestos taxR texto u).confianza_total =
       ((((detectar_repuestos taxR texto u).clasificaciones.head?).map
         (fun c => c.confianza)).getD 0)) ∧
    ((detectar_trabajos taxT texto u).clasificaciones.Sorted ordenConfianza ∧
     (detectar_trabajos taxT texto u).mejor_clasificacion =
       (detectar_trabajos taxT texto u).clasificaciones.head? ∧
     (detectar_trabajos taxT texto u).confianza_total =
       ((((detectar_trabajos taxT texto u).clasificaciones.head?).map
         (fun c => c.confianza)).getD 0)) := by
  have hsR : ((detectar_repuestos taxR texto u).clasificaciones).Sorted ordenConfianza := by
    rw [clasificaciones_detectar_repuestos]
    exact List.sorted_insertionSort ordenConfianza _
  have hsT : ((detectar_trabajos taxT texto u).clasificaciones).Sorted ordenConfianza := by
    rw [clasificaciones_detectar_trabajos]
    exact List.sorted_insertionSort ordenConfianza _
  exact ⟨⟨hsR, rfl, maxPython_sorted _ hsR⟩, ⟨hsT, rfl, maxPython_sorted _ hsT⟩⟩

/-- Claim C9: every match in a returned detection result carries exactly
one matched keyword string (the single keyword of the candidate that won
the per-category deduplication), for both taxonomy kinds. -/
theorem c9_palabra_unica (taxR : TaxonomiaRepuestos) (taxT : TaxonomiaTrabajos)
    (texto : List Char) (u : ℚ) :
    (∀ c ∈ (detectar_repuestos taxR texto u).clasificaciones,
      c.palabras_encontradas.length = 1) ∧
    (∀ c ∈ (detectar_trabajos taxT texto u).clasificaciones,
      c.palabras_encontradas.length = 1) := by
  constructor
  · intro c hc
    rw [clasificaciones_detectar_repuestos] at hc
    have hc2 := (List.perm_insertionSort ordenConfianza _).mem_iff.mp hc
    rcases mem_foldl_actualizarUnicas _ [] c hc2 with h | h
    · exact absurd h (List.not_mem_nil c)
    · exact palabras_candidatosRepuestos taxR _ u c h
  · intro c hc
    rw [clasificaciones_detectar_trabajos] at hc
    have hc2 := (List.perm_insertionSort ordenConfianza _).mem_iff.mp hc
    rcases mem_foldl_actualizarUnicas _ [] c hc2 with h | h
    · exact absurd h (List.not_mem_nil c)
    · exact palabras_candidatosTrabajos taxT _ u c h

theorem c9_testigo :
    (⟨"Filtros".toList, 1, 27 / 40, ["filtro".toList], true, "f00".toList⟩ :
      ClasificacionResultado).palabras_encontradas.length = 1 :=
  (c9_palabra_unica taxRepuestosEj taxTrabajosEj "filtro".toList (3 / 10)).1 _
    (by with_unfolding_all decide)

/-! ## Claim C1 -/

/-- Modelled from the spec's words for the parent-category adjustment of
claim C1: a null parent reference multiplies by `1.1` and a non-null one
by `0.9`, in the same position of the cascade; to be compared with the
source's `confianzaRepuesto`. -/
def confianzaRepuestoSegunSpec (dato : DatoRepuesto) (palabraCompleta : Bool) : ℚ :=
  let c0 := dato.peso
  let c1 := if palabraCompleta then c0 * 1.5 else c0
  let c2 := if dato.es_sinonimo then c1 * 0.8 else c1
  let c3 := if dato.categoria_padre = none then c2 * 1.1 else c2 * 0.9
  pyMin (c3 / 2) 1

/-- Claim C1 is false on the source: for a plain root-category entry
(weight 1, no synonym flag, null parent, no whole-word match) the source
computes `0.45` while the claimed adjustment computes `0.55`. -/
theorem c1_contraejemplo :
    confianzaRepuesto datoFiltroEj false ≠ confianzaRepuestoSegunSpec datoFiltroEj false := by
  with_unfolding_all decide

/-- Claim C1 (amended): the parent-category factor is `0.9` when the
parent reference is falsy (null or zero) and `1.1` otherwise — the
opposite of the claimed direction — applied after the whole-word and
synonym factors and, for labor, before the complexity factor, with the
final division by `2` and cap at `1`. -/
theorem c1_enmendado (dR : DatoRepuesto) (wR : Bool) (dT : DatoTrabajo) (wT : Bool) :
    confianzaRepuesto dR wR =
      pyMin ((dR.peso * (if wR then 1.5 else 1) * (if dR.es_sinonimo then 0.8 else 1) *
        (if esFalsoPython dR.categoria_padre then 0.9 else 1.1)) / 2) 1 ∧
    confianzaTrabajo dT wT =
      pyMin ((dT.peso * (if wT then 1.5 else 1) * (if dT.es_sinonimo then 0.8 else 1) *
        (if esFalsoPython dT.categoria_padre then 0.9 else 1.1) *
        (if 3 ≤ dT.complejidad then 1.2 else 1)) / 2) 1 := by
  constructor
  · simp only [confianzaRepuesto]
    split_ifs <;> (congr 1 <;> ring)
  · simp only [confianzaTrabajo]
    split_ifs <;> (congr 1 <;> ring)

/-! ## Claim C4 -/

/-- A taxonomy entry whose stored keyword normalizes to the empty string. -/
def datoPuntoEj : DatoRepuesto :=
  ⟨".".toList, 1, false, none, 2, "Puntuacion".toList, none, "00f".toList⟩

/-- Claim C4 is false as quantified: there is a taxonomy snapshot (one
whose keyword normalizes to the empty string, which is a substring of
everything) for which classifying the empty text returns a non-empty
match list. -/
theorem c4_contraejemplo :
    (detectar_repuestos [([], [datoPuntoEj])] [] (3 / 10)).clasificaciones ≠ [] := by
  with_unfolding_all decide

/-- Claim C4 (amended): provided every keyword key of the snapshot is
non-empty, classifying a text that normalizes to the empty string (empty
or whitespace-only) yields no matches, no best match and overall
confidence `0`, for both taxonomy kinds; and analyzing a null or empty
description returns the empty report without touching the store. -/
theorem c4_enmendado (taxR : TaxonomiaRepuestos) (taxT : TaxonomiaTrabajos)
    (almacen : Almacen) (mid : Option Int) (texto : List Char) (u : ℚ)
    (hR : ∀ par ∈ taxR, par.1 ≠ []) (hT : ∀ par ∈ taxT, par.1 ≠ [])
    (hv : normalizar_texto texto = []) :
    ((detectar_repuestos taxR texto u).clasificaciones = [] ∧
     (detectar_repuestos taxR texto u).mejor_clasificacion = none ∧
     (detectar_repuestos taxR texto u).confianza_total = 0) ∧
    ((detectar_trabajos taxT texto u).clasificaciones = [] ∧
     (detectar_trabajos taxT texto u).mejor_clasificacion = none ∧
     (detectar_trabajos taxT texto u).confianza_total = 0) ∧
    analizar_mantenimiento_completo taxR taxT almacen none mid =
      Except.ok (reporteVacio, almacen) ∧
    analizar_mantenimiento_completo taxR taxT almacen (some []) mid =
      Except.ok (reporteVacio, almacen) := by
  have eR : (detectar_repuestos taxR texto u).clasificaciones = [] := by
    rw [clasificaciones_detectar_repuestos, hv, candidatosRepuestos_texto_vacio taxR u hR]
    rfl
  have eT : (detectar_trabajos taxT texto u).clasificaciones = [] := by
    rw [clasificaciones_detectar_trabajos, hv, candidatosTrabajos_texto_vacio taxT u hT]
    rfl
  refine ⟨⟨eR, ?_, ?_⟩, ⟨eT, ?_, ?_⟩, rfl, rfl⟩
  · have h1 : (detectar_repuestos taxR texto u).mejor_clasificacion =
      (detectar_repuestos taxR texto u).clasificaciones.head? := rfl
    rw [h1, eR]
    rfl
  · have h1 : (detectar_repuestos taxR texto u).confianza_total =
      maxPython ((detectar_repuestos taxR texto u).clasificaciones.map
        (fun c => c.confianza)) 0 := rfl
    rw [h1, eR]
    rfl
  · have h1 : (detectar_trabajos taxT texto u).mejor_clasificacion =
      (detectar_trabajos taxT texto u).clasificaciones.head? := rfl
    rw [h1, eT]
    rfl
  · have h1 : (detectar_trabajos taxT texto u).confianza_total =
      maxPython ((detectar_trabajos taxT texto u).clasificaciones.map
        (fun c => c.confianza)) 0 := rfl
    rw [h1, eT]
    rfl

theorem c4_testigo :
    ((detectar_repuestos taxRepuestosEj "  ".toList (3 / 10)).clasificaciones = [] ∧
     (detectar_repuestos taxRepuestosEj "  ".toList (3 / 10)).mejor_clasificacion = none ∧
     (detectar_repuestos taxRepuestosEj "  ".toList (3 / 10)).confianza_total = 0) ∧
    ((detectar_trabajos taxTrabajosEj "  ".toList (3 / 10)).clasificaciones = [] ∧
     (detectar_trabajos taxTrabajosEj "  ".toList (3 / 10)).mejor_clasificacion = none ∧
     (detectar_trabajos taxTrabajosEj "  ".toList (3 / 10)).confianza_total = 0) ∧
    analizar_mantenimiento_completo taxRepuestosEj taxTrabajosEj ⟨[], false⟩ none none =
      Except.ok (reporteVacio, ⟨[], false⟩) ∧
    analizar_mantenimiento_completo taxRepuestosEj taxTrabajosEj ⟨[], false⟩ (some []) none =
      Except.ok (reporteVacio, ⟨[], false⟩) :=
  c4_enmendado taxRepuestosEj taxTrabajosEj ⟨[], false⟩ none "  ".toList (3 / 10)
    (by decide) (by decide) (by decide)

/-! ## Claim C10 -/

/-- Claim C10: analyzing with record id `0` behaves exactly like analyzing
with no record id — the truthiness guard skips the audit write and the
whole result (report and store) coincides. -/
theorem c10_id_cero (taxR : TaxonomiaRepuestos) (taxT : TaxonomiaTrabajos)
    (almacen : Almacen) (descripcion : Option (List Char)) :
    analizar_mantenimiento_completo taxR taxT almacen descripcion (some 0) =
      analizar_mantenimiento_completo taxR taxT almacen descripcion none := by
  cases descripcion with
  | none => rfl
  | some d =>
    by_cases hd : d = []
    · simp [analizar_mantenimiento_completo, escrituraAuditoria, hd]
    · simp [analizar_mantenimiento_completo, escrituraAuditoria, hd]

/-! ## Claim C8 -/

theorem acumularPartes_aux (partes : List (List Char)) (a b : List Char) :
    partes.foldl pasoAcumular (a, b) =
      (a ++ ((partes.map recortar).filter (fun p => etiquetaDe p != 1)).flatMap
        (fun p => ' ' :: p),
       b ++ ((partes.map recortar).filter (fun p => etiquetaDe p != 0)).flatMap
        (fun p => ' ' :: p)) := by
  induction partes generalizing a b with
  | nil => simp
  | cons parte resto ih =>
    simp only [List.foldl_cons, List.map_cons]
    by_cases hr : empiezaCon etiquetaRepuesto (recortar parte) = true
    · rw [show pasoAcumular (a, b) parte = (a ++ ' ' :: recortar parte, b) by
        simp [pasoAcumular, hr]]
      rw [ih]
      simp [etiquetaDe, hr, List.filter_cons, List.append_assoc]
    · by_cases ht : empiezaCon etiquetaTrabajo (recortar parte) = true
      · rw [show pasoAcumular (a, b) parte = (a, b ++ ' ' :: recortar parte) by
          simp [pasoAcumular, hr, ht]]
        rw [ih]
        simp [etiquetaDe, hr, ht, List.filter_cons, List.append_assoc]
      · rw [show pasoAcumular (a, b) parte =
            (a ++ ' ' :: recortar parte, b ++ ' ' :: recortar parte) by
          simp [pasoAcumular, hr, ht]]
        rw [ih]
        simp [etiquetaDe, hr, ht, List.filter_cons, List.append_assoc]

/-- Claim C8: the analyzer splits the description on the pipe delimiter
and routes each stripped segment by its case-insensitive label prefix:
the parts accumulator collects (space-prefixed) exactly the segments not
labelled as labor, and the labor accumulator exactly the segments not
labelled as parts — so unlabelled segments go to both. -/
theorem c8_acumuladores (d : List Char) :
    acumularPartes (List.splitOn '|' d) =
      ((((List.splitOn '|' d).map recortar).filter
          (fun p => etiquetaDe p != 1)).flatMap (fun p => ' ' :: p),
       (((List.splitOn '|' d).map recortar).filter
          (fun p => etiquetaDe p != 0)).flatMap (fun p => ' ' :: p)) := by
  rw [acumularPartes, acumularPartes_aux]
  simp

/-! ## Claim C3 -/

theorem guardar_ok (almacen : Almacen) (mid : Int) (det : DeteccionCompleta)
    (tipo : List Char) (h : almacen.falla = false) :
    ∃ a2 : Almacen, guardar_clasificacion almacen mid det tipo = Except.ok a2 ∧
      a2.falla = false := by
  cases hM : det.mejor_clasificacion with
  | none =>
    refine ⟨almacen, ?_, h⟩
    unfold guardar_clasificacion
    rw [h, hM]
    simp
  | some mejor =>
    refine ⟨⟨almacen.registros ++
      [⟨mid, det.texto_original, tipo, mejor.categoria, det.confianza_total,
        det.clasificaciones.map (fun c => c.palabras_encontradas)⟩], false⟩, ?_, rfl⟩
    unfold guardar_clasificacion
    rw [h, hM]
    simp

theorem escritura_ok (almacen : Almacen) (mid : Option Int)
    (detR detT : DeteccionCompleta) (h : almacen.falla = false) :
    ∃ a2 : Almacen, escrituraAuditoria almacen mid detR detT = Except.ok a2 ∧
      a2.falla = false := by
  cases mid with
  | none => exact ⟨almacen, rfl, h⟩
  | some m =>
    by_cases hm : m ≠ 0
    · simp only [escrituraAuditoria, if_pos hm]
      have paso1 : ∃ a1 : Almacen,
          (if detR.mejor_clasificacion.isSome = true then
            guardar_clasificacion almacen m detR etiquetaRepuesto
          else Except.ok almacen) = Except.ok a1 ∧ a1.falla = false := by
        by_cases h1 : detR.mejor_clasificacion.isSome = true
        · rw [if_pos h1]
          exact guardar_ok almacen m detR etiquetaRepuesto h
        · rw [if_neg h1]
          exact ⟨almacen, rfl, h⟩
      rcases paso1 with ⟨a1, e1, f1⟩
      rw [e1]
      show ∃ a2 : Almacen,
        (if detT.mejor_clasificacion.isSome = true then
          guardar_clasificacion a1 m detT etiquetaTrabajo
        else Except.ok a1) = Except.ok a2 ∧ a2.falla = false
      by_cases h2 : detT.mejor_clasificacion.isSome = true
      · rw [if_pos h2]
        exact guardar_ok a1 m detT etiquetaTrabajo f1
      · rw [if_neg h2]
        exact ⟨a1, rfl, f1⟩
    · simp only [escrituraAuditoria, if_neg hm]
      exact ⟨almacen, rfl, h⟩

theorem analizar_reporte (taxR : TaxonomiaRepuestos) (taxT : TaxonomiaTrabajos)
    (almacen : Almacen) (d : List Char) (mid : Option Int)
    (h : almacen.falla = false) (hd : ¬(d = [])) :
    (analizar_mantenimiento_completo taxR taxT almacen (some d) mid).map Prod.fst =
      Except.ok (reporteDe
        (detectar_repuestos taxR (acumularPartes (List.splitOn '|' d)).1 0.3)
        (detectar_trabajos taxT (acumularPartes (List.splitOn '|' d)).2 0.3)) := by
  simp only [analizar_mantenimiento_completo, if_neg hd]
  rcases escritura_ok almacen mid
    (detectar_repuestos taxR (acumularPartes (List.splitOn '|' d)).1 0.3)
    (detectar_trabajos taxT (acumularPartes (List.splitOn '|' d)).2 0.3) h with ⟨a2, e2, f2⟩
  rw [e2]
  rfl

/-- Claim C3 is false on the source: with a failing audit store, a
description with a best spare-part match and a truthy record id,
`analizar_mantenimiento_completo` propagates the store error instead of
returning a report. -/
theorem c3_contraejemplo :
    analizar_mantenimiento_completo taxRepuestosEj taxTrabajosEj ⟨[], true⟩
      (some "filtro".toList) (some 1) = Except.error () := by
  with_unfolding_all rfl

/-- Claim C3 (amended): the recording step never alters the computed
report — whenever the audit store does not fail, the report returned with
recording requested is identical to the one returned with recording
disabled (and when the store does fail, the error propagates, as the
counterexample shows). -/
theorem c3_enmendado (taxR : TaxonomiaRepuestos) (taxT : TaxonomiaTrabajos)
    (almacen : Almacen) (descripcion : Option (List Char)) (mid : Option Int)
    (h : almacen.falla = false) :
    (analizar_mantenimiento_completo taxR taxT almacen descripcion mid).map Prod.fst =
      (analizar_mantenimiento_completo taxR taxT almacen descripcion none).map Prod.fst := by
  cases descripcion with
  | none => rfl
  | some d =>
    by_cases hd : d = []
    · subst hd
      rfl
    · rw [analizar_reporte taxR taxT almacen d mid h hd,
        analizar_reporte taxR taxT almacen d none h hd]

theorem c3_testigo :
    (analizar_mantenimiento_completo taxRepuestosEj taxTrabajosEj ⟨[], false⟩
        (some "filtro".toList) (some 1)).map Prod.fst =
      (analizar_mantenimiento_completo taxRepuestosEj taxTrabajosEj ⟨[], false⟩
        (some "filtro".toList) none).map Prod.fst :=
  c3_enmendado taxRepuestosEj taxTrabajosEj ⟨[], false⟩ (some "filtro".toList)
    (some 1) rfl

/-! ## Claim C2: character-table lemmas -/

/-- A character already in normal form: fixed by lower-casing and
decomposition, not a combining mark, kept by the symbol replacement, and
equal to `' '` if it is whitespace at all. -/
def buenCaracter (c : Char) : Bool :=
  aMinuscula c == c && descomponer c == [c] && !esMarca c &&
  (esCaracterPalabra c || esEspacio c) && (!esEspacio c || c == ' ')

theorem lookup_mem {β : Type} (l : List (Char × β)) (k : Char) (v : β)
    (h : l.lookup k = some v) : (k, v) ∈ l := by
  induction l with
  | nil => simp [List.lookup] at h
  | cons p resto ih =>
    rcases p with ⟨k', v'⟩
    simp only [List.lookup] at h
    cases hk : k == k' with
    | true =>
      rw [hk] at h
      simp only at h
      have hke : k = k' := by simpa using hk
      subst hke
      exact (Option.some.inj h) ▸ List.mem_cons_self _ _
    | false =>
      rw [hk] at h
      simp only at h
      exact List.mem_cons_of_mem _ (ih h)

theorem tablaMin_valores : ∀ p ∈ tablaMinusculas, tablaMinusculas.lookup p.2 = none := by
  decide

theorem aMinuscula_idem (c : Char) : aMinuscula (aMinuscula c) = aMinuscula c := by
  unfold aMinuscula
  cases h : tablaMinusculas.lookup c with
  | none => simp [h]
  | some v =>
    simp only [Option.getD_some]
    rw [tablaMin_valores (c, v) (lookup_mem _ _ _ h)]
    rfl

theorem tablaNFD_valores : ∀ p ∈ tablaNFD, aMinuscula p.1 = p.1 →
    ∀ c ∈ p.2, esMarca c = false →
    tablaMinusculas.lookup c = none ∧ tablaNFD.lookup c = none := by
  decide

theorem espacio_no_palabra (c : Char) (h : esEspacio c = true) :
    esCaracterPalabra c = false := by
  simp only [esEspacio, Bool.or_eq_true, beq_iff_eq] at h
  rcases h with (((((h | h) | h) | h) | h) | h) <;> subst h <;> decide

/-- Key table property: any non-mark character produced by decomposing an
already lower-cased character is itself fixed by lower-casing and by
decomposition. -/
theorem descomponer_fijo (a c : Char) (hc : c ∈ descomponer (aMinuscula a))
    (hm : esMarca c = false) : aMinuscula c = c ∧ descomponer c = [c] := by
  unfold descomponer at hc
  cases h : tablaNFD.lookup (aMinuscula a) with
  | none =>
    rw [h, Option.getD_none] at hc
    have hceq : c = aMinuscula a := by simpa using hc
    subst hceq
    refine ⟨aMinuscula_idem a, ?_⟩
    unfold descomponer
    rw [h]
    rfl
  | some v =>
    rw [h, Option.getD_some] at hc
    rcases tablaNFD_valores (aMinuscula a, v) (lookup_mem _ _ _ h)
      (aMinuscula_idem a) c hc hm with ⟨h1, h2⟩
    constructor
    · unfold aMinuscula
      rw [h1]
      rfl
    · unfold descomponer
      rw [h2]
      rfl

/-! ## Claim C2: lemmas about the whitespace collapse and the strip -/

theorem mem_colapsarEspacios (l : List Char) (c : Char)
    (hc : c ∈ colapsarEspacios l) : c = ' ' ∨ (c ∈ l ∧ esEspacio c = false) := by
  induction l with
  | nil => simp [colapsarEspacios] at hc
  | cons a resto ih =>
    cases resto with
    | nil =>
      simp only [colapsarEspacios] at hc
      by_cases ha : esEspacio a = true
      · rw [if_pos ha] at hc
        exact Or.inl (by simpa using hc)
      · rw [if_neg ha] at hc
        have : c = a := by simpa using hc
        subst this
        exact Or.inr ⟨List.mem_cons_self _ _, by simpa using ha⟩
    | cons d resto2 =>
      simp only [colapsarEspacios] at hc ih
      by_cases ha : esEspacio a = true
      · rw [if_pos ha] at hc
        by_cases hd : esEspacio d = true
        · rw [if_pos hd] at hc
          rcases ih hc with h | ⟨h1, h2⟩
          · exact Or.inl h
          · exact Or.inr ⟨List.mem_cons_of_mem a h1, h2⟩
        · rw [if_neg hd] at hc
          rcases List.mem_cons.mp hc with h | h
          · exact Or.inl h
          · rcases ih h with h2 | ⟨h1, h2⟩
            · exact Or.inl h2
            · exact Or.inr ⟨List.mem_cons_of_mem a h1, h2⟩
      · rw [if_neg ha] at hc
        rcases List.mem_cons.mp hc with h | h
        · subst h
          exact Or.inr ⟨List.mem_cons_self _ _, by simpa using ha⟩
        · rcases ih h with h2 | ⟨h1, h2⟩
          · exact Or.inl h2
          · exact Or.inr ⟨List.mem_cons_of_mem a h1, h2⟩

theorem mem_dropWhile_espacios (l : List Char) (c : Char)
    (hc : c ∈ l.dropWhile esEspacio) : c ∈ l := by
  induction l with
  | nil => simp at hc
  | cons a resto ih =>
    by_cases ha : esEspacio a = true
    · rw [List.dropWhile_cons_of_pos ha] at hc
      exact List.mem_cons_of_mem a (ih hc)
    · rw [List.dropWhile_cons_of_neg ha] at hc
      exact hc

theorem mem_recortar (l : List Char) (c : Char) (hc : c ∈ recortar l) : c ∈ l := by
  unfold recortar at hc
  rw [List.mem_reverse] at hc
  have h1 := mem_dropWhile_espacios _ c hc
  rw [List.mem_reverse] at h1
  exact mem_dropWhile_espacios _ c h1

theorem head_dropWhile_espacios (l : List Char) (c : Char)
    (hc : (l.dropWhile esEspacio).head? = some c) : esEspacio c = false := by
  induction l with
  | nil => simp at hc
  | cons a resto ih =>
    by_cases ha : esEspacio a = true
    · rw [List.dropWhile_cons_of_pos ha] at hc
      exact ih hc
    · rw [List.dropWhile_cons_of_neg ha] at hc
      have hca : c = a := by
        have := hc
        simp only [List.head?_cons, Option.some.injEq] at this
        exact this.symm
      subst hca
      simpa using ha

theorem getLast_dropWhile_espacios (l : List Char)
    (h : l.dropWhile esEspacio ≠ []) :
    (l.dropWhile esEspacio).getLast? = l.getLast? := by
  induction l with
  | nil => simp
  | cons a resto ih =>
    by_cases ha : esEspacio a = true
    · rw [List.dropWhile_cons_of_pos ha] at h ⊢
      rcases hresto : resto with _ | ⟨b, resto2⟩
      · rw [hresto] at h
        simp at h
      · rw [← hresto, ih h, hresto, List.getLast?_cons_cons]
    · rw [List.dropWhile_cons_of_neg ha]

/-- The strip always leaves clean edges: the first and last characters of
`recortar l` are never whitespace. -/
theorem bordes_recortar (l : List Char) :
    (∀ c, (recortar l).head? = some c → esEspacio c = false) ∧
    (∀ c, (recortar l).getLast? = some c → esEspacio c = false) := by
  constructor
  · intro c hc
    unfold recortar at hc
    rw [List.head?_reverse] at hc
    by_cases hY : (l.dropWhile esEspacio).reverse.dropWhile esEspacio = []
    · rw [hY] at hc
      simp at hc
    · rw [getLast_dropWhile_espacios _ hY, List.getLast?_reverse] at hc
      exact head_dropWhile_espacios _ c hc
  · intro c hc
    unfold recortar at hc
    rw [List.getLast?_reverse] at hc
    exact head_dropWhile_espacios _ c hc

/-! ## Claim C2: every character produced by one normalization pass is in
normal form -/

theorem buen_partes (c : Char) (h : buenCaracter c = true) :
    aMinuscula c = c ∧ descomponer c = [c] ∧ esMarca c = false ∧
    (esCaracterPalabra c || esEspacio c) = true ∧ (esEspacio c = true → c = ' ') := by
  unfold buenCaracter at h
  simp only [Bool.and_eq_true, beq_iff_eq, Bool.not_eq_true', Bool.or_eq_true] at h
  obtain ⟨⟨⟨⟨h1, h2⟩, h3⟩, h4⟩, h5⟩ := h
  refine ⟨h1, h2, h3, by simp [h4], ?_⟩
  intro hsp
  rcases h5 with h5 | h5
  · rw [hsp] at h5
    simp at h5
  · exact h5

theorem buenos_normalizar (t : List Char) :
    ∀ c ∈ normalizar_texto t, buenCaracter c = true := by
  intro c hc
  unfold normalizar_texto at hc
  by_cases ht : t = []
  · rw [if_pos ht] at hc
    simp at hc
  · rw [if_neg ht] at hc
    have hc2 := mem_recortar _ c hc
    rcases List.mem_map.mp hc2 with ⟨c0, hc0, hcc⟩
    rcases mem_colapsarEspacios _ c0 hc0 with h0 | ⟨h0mem, h0ns⟩
    · subst h0
      rw [← hcc]
      decide
    · rw [List.mem_filter] at h0mem
      obtain ⟨h0flat, h0nm⟩ := h0mem
      rcases List.mem_flatMap.mp h0flat with ⟨a', ha', hDa⟩
      rcases List.mem_map.mp ha' with ⟨a, _, haa⟩
      subst haa
      have hnm : esMarca c0 = false := by simpa using h0nm
      rcases descomponer_fijo a c0 hDa hnm with ⟨hf1, hf2⟩
      rw [← hcc]
      unfold reemplazarSimbolo
      by_cases hw : (esCaracterPalabra c0 || esEspacio c0) = true
      · rw [if_pos hw]
        have hw2 : esCaracterPalabra c0 = true := by
          have hw3 : esCaracterPalabra c0 = true ∨ esEspacio c0 = true := by
            simpa using hw
          rcases hw3 with h | h
          · exact h
          · rw [h0ns] at h
            simp at h
        simp [buenCaracter, hf1, hf2, hnm, h0ns, hw2]
      · rw [if_neg hw]
        decide

/-! ## Claim C2: the collapsed text has no two adjacent whitespace
characters, and this is preserved by the strip -/

def noDosEspacios (a b : Char) : Prop :=
  ¬(esEspacio a = true ∧ esEspacio b = true)

theorem head_colapsar_no_espacio (d : Char) (resto : List Char)
    (hd : esEspacio d = false) :
    (colapsarEspacios (d :: resto)).head? = some d := by
  cases resto with
  | nil => simp [colapsarEspacios, hd]
  | cons e r2 => simp [colapsarEspacios, hd]

theorem chain_colapsar (l : List Char) :
    List.Chain' noDosEspacios (colapsarEspacios l) := by
  induction l with
  | nil => simp [colapsarEspacios]
  | cons a resto ih =>
    cases resto with
    | nil =>
      by_cases ha : esEspacio a = true <;> simp [colapsarEspacios, ha]
    | cons d r2 =>
      simp only [colapsarEspacios]
      by_cases ha : esEspacio a = true
      · rw [if_pos ha]
        by_cases hd : esEspacio d = true
        · rw [if_pos hd]
          exact ih
        · rw [if_neg hd]
          rw [List.chain'_cons']
          refine ⟨?_, ih⟩
          intro b hb
          rw [head_colapsar_no_espacio d r2 (by simpa using hd)] at hb
          have hbd : d = b := by simpa using hb
          subst hbd
          simp [noDosEspacios, hd]
      · rw [if_neg ha]
        rw [List.chain'_cons']
        refine ⟨?_, ih⟩
        intro b _
        simp [noDosEspacios, ha]

theorem chain_dropWhile (l : List Char) (h : List.Chain' noDosEspacios l) :
    List.Chain' noDosEspacios (l.dropWhile esEspacio) := by
  induction l with
  | nil => simp
  | cons a resto ih =>
    by_cases ha : esEspacio a = true
    · rw [List.dropWhile_cons_of_pos ha]
      exact ih h.tail
    · rw [List.dropWhile_cons_of_neg ha]
      exact h

theorem chain_reverse_noDos (l : List Char) (h : List.Chain' noDosEspacios l) :
    List.Chain' noDosEspacios l.reverse := by
  rw [List.chain'_reverse]
  exact h.imp (fun a b hab => fun hp => hab ⟨hp.2, hp.1⟩)

theorem chain_recortar (l : List Char) (h : List.Chain' noDosEspacios l) :
    List.Chain' noDosEspacios (recortar l) := by
  unfold recortar
  exact chain_reverse_noDos _ (chain_dropWhile _ (chain_reverse_noDos _ (chain_dropWhile _ h)))

/-! ## Claim C2: identity of each pipeline stage on normal-form input -/

theorem map_id_en (l : List Char) (f : Char → Char) (h : ∀ c ∈ l, f c = c) :
    l.map f = l := by
  induction l with
  | nil => rfl
  | cons a resto ih =>
    rw [List.map_cons, h a (List.mem_cons_self a resto),
      ih (fun c hc => h c (List.mem_cons_of_mem a hc))]

theorem flatMap_id_en (l : List Char) (h : ∀ c ∈ l, descomponer c = [c]) :
    l.flatMap descomponer = l := by
  induction l with
  | nil => rfl
  | cons a resto ih =>
    rw [List.flatMap_cons, h a (List.mem_cons_self a resto),
      ih (fun c hc => h c (List.mem_cons_of_mem a hc))]
    rfl

theorem colapsar_id (l : List Char) :
    List.Chain' noDosEspacios l → (∀ c ∈ l, esEspacio c = true → c = ' ') →
    colapsarEspacios l = l := by
  induction l with
  | nil => intro _ _; rfl
  | cons a resto ih =>
    intro hch hsp
    cases resto with
    | nil =>
      simp only [colapsarEspacios]
      by_cases ha : esEspacio a = true
      · rw [if_pos ha, hsp a (List.mem_cons_self a []) ha]
      · rw [if_neg ha]
    | cons d r2 =>
      simp only [colapsarEspacios]
      have hrec := ih (List.chain'_cons.mp hch).2
        (fun c hc hs => hsp c (List.mem_cons_of_mem a hc) hs)
      by_cases ha : esEspacio a = true
      · have hd : esEspacio d = false := by
          by_contra hd2
          exact (List.chain'_cons.mp hch).1 ⟨ha, by simpa using hd2⟩
        rw [if_pos ha, if_neg (by simp [hd]), hrec, hsp a (List.mem_cons_self a _) ha]
      · rw [if_neg ha, hrec]

theorem dropWhile_id_espacios (l : List Char)
    (h : ∀ c, l.head? = some c → esEspacio c = false) :
    l.dropWhile esEspacio = l := by
  cases l with
  | nil => rfl
  | cons a resto => exact List.dropWhile_cons_of_neg (by simp [h a rfl])

theorem recortar_id (l : List Char)
    (h1 : ∀ c, l.head? = some c → esEspacio c = false)
    (h2 : ∀ c, l.getLast? = some c → esEspacio c = false) : recortar l = l := by
  unfold recortar
  rw [dropWhile_id_espacios l h1,
    dropWhile_id_espacios l.reverse (fun c hc => h2 c (by rwa [List.head?_reverse] at hc)),
    List.reverse_reverse]

theorem bordes_normalizar (t : List Char) :
    (∀ c, (normalizar_texto t).head? = some c → esEspacio c = false) ∧
    (∀ c, (normalizar_texto t).getLast? = some c → esEspacio c = false) := by
  unfold normalizar_texto
  by_cases ht : t = []
  · rw [if_pos ht]
    constructor <;> (intro c hc; simp at hc)
  · rw [if_neg ht]
    exact bordes_recortar _

theorem normalizar_en_buenos (l : List Char)
    (hb : ∀ c ∈ l, buenCaracter c = true) :
    normalizar_texto l = recortar (colapsarEspacios l) := by
  by_cases hl : l = []
  · subst hl
    rfl
  · unfold normalizar_texto
    rw [if_neg hl,
      map_id_en l aMinuscula (fun c hc => (buen_partes c (hb c hc)).1),
      flatMap_id_en l (fun c hc => (buen_partes c (hb c hc)).2.1),
      List.filter_eq_self.mpr (fun c hc => by
        simp [(buen_partes c (hb c hc)).2.2.1]),
      map_id_en (colapsarEspacios l) reemplazarSimbolo (fun c hc => by
        rcases mem_colapsarEspacios l c hc with h | ⟨hmem, _⟩
        · subst h
          decide
        · unfold reemplazarSimbolo
          rw [if_pos (buen_partes c (hb c hmem)).2.2.2.1])]

/-! ## Claim C2: statements -/

/-- Claim C2 is false on the source: the normalizer is not idempotent.
Punctuation is replaced by spaces only after whitespace runs are
collapsed, so `"a..b"` normalizes to `"a␣␣b"` (two spaces), which a
second pass shortens to `"a␣b"`. -/
theorem c2_contraejemplo :
    normalizar_texto (normalizar_texto "a..b".toList) ≠
      normalizar_texto "a..b".toList := by
  decide

/-- Claim C2 (amended): two normalization passes reach a fixed point —
for every string, `normalize (normalize (normalize s)) =
normalize (normalize s)`, although a single pass need not be idempotent
(see the counterexample). -/
theorem c2_enmendado (t : List Char) :
    normalizar_texto (normalizar_texto (normalizar_texto t)) =
      normalizar_texto (normalizar_texto t) := by
  have hb1 : ∀ c ∈ normalizar_texto t, buenCaracter c = true := buenos_normalizar t
  have hb2 : ∀ c ∈ normalizar_texto (normalizar_texto t), buenCaracter c = true :=
    buenos_normalizar (normalizar_texto t)
  have hch2 : List.Chain' noDosEspacios (normalizar_texto (normalizar_texto t)) := by
    rw [normalizar_en_buenos (normalizar_texto t) hb1]
    exact chain_recortar _ (chain_colapsar _)
  calc normalizar_texto (normalizar_texto (normalizar_texto t))
      = recortar (colapsarEspacios (normalizar_texto (normalizar_texto t))) :=
        normalizar_en_buenos _ hb2
    _ = recortar (normalizar_texto (normalizar_texto t)) := by
        rw [colapsar_id _ hch2 (fun c hc hsp => (buen_partes c (hb2 c hc)).2.2.2.2 hsp)]
    _ = normalizar_texto (normalizar_texto t) :=
        recortar_id _ (bordes_normalizar (normalizar_texto t)).1
          (bordes_normalizar (normalizar_texto t)).2
